import Mathlib

/-!
Verification of the skl-rs core (arena allocator and multi-version skipmap)
against its natural-language specification.

The arena allocator is embedded from src/arena.rs.  The skipmap's bottom-level
chain, its entry view and its iterator stepping are embedded from
src/map/entry.rs and src/map/iterator.rs.  The skipmap operations implemented
in the absent src/map.rs (get, get_or_insert, get_or_remove, compare_remove)
are modelled from the spec, checked for consistency against the tests in
src/map/tests.rs.

Machine integers are modelled as Nat with explicit reduction mod 2^32 at the
points where the source casts to u32.  The 64-bit allocation counter is
modelled as an unbounded Nat: every code path that grows the counter first
checks that it is at most the capacity (a u32-sized quantity), so the u64
counter can never come near 2^64 and the embedding loses nothing.
-/

/-- Wrapping u32 subtraction, as performed by the source's
two-complement subtraction after the cast in src/arena.rs. -/
def sub32 (a b : Nat) : Nat := (a % 2 ^ 32 + (2 ^ 32 - b % 2 ^ 32)) % 2 ^ 32

/-- Bitwise u32 complement, the source's prefix exclamation operator on u32. -/
def not32 (x : Nat) : Nat := (2 ^ 32 - 1) ^^^ (x % 2 ^ 32)

/-- The arena state observable through src/arena.rs: a fixed capacity and the
atomic allocation counter n (named n in the source as well). -/
structure Arena where
  cap : Nat
  n : Nat
  deriving DecidableEq

/-- Embeds Arena::size from src/arena.rs (the load of the counter). -/
def Arena.size (a : Arena) : Nat := a.n

/-- Embeds Arena::alloc from src/arena.rs.  The first component is the result
(offset and padded size on success, none for ArenaError), the second the
arena state after the call.  The fetch-add happens before the capacity check,
so a failing call can advance the counter. -/
def Arena.alloc (a : Arena) (size align overflow : Nat) :
    Option (Nat × Nat) × Arena :=
  if a.cap < a.n then (none, a)
  else
    let padded := size + align - 1
    let newSize := a.n + padded
    if a.cap < newSize + overflow then (none, { a with n := newSize })
    else
      let offset := sub32 newSize size &&& not32 (align - 1)
      (some (offset, padded % 2 ^ 32), { a with n := newSize })

/-- Runs a sequence of alloc requests, threading the arena state. -/
def runAllocs : Arena → List (Nat × Nat × Nat) → Arena
  | a, [] => a
  | a, (s, al, o) :: rest => runAllocs (a.alloc s al o).2 rest

theorem sub32_eq_sub {a b : Nat} (hb : b ≤ a) (ha : a < 2 ^ 32) :
    sub32 a b = a - b := by
  unfold sub32
  have hb' : b < 2 ^ 32 := lt_of_le_of_lt hb ha
  rw [Nat.mod_eq_of_lt ha, Nat.mod_eq_of_lt hb']
  have h1 : a + (2 ^ 32 - b) = (a - b) + 2 ^ 32 := by omega
  rw [h1, Nat.add_mod_right, Nat.mod_eq_of_lt (by omega)]

theorem land_not32_two_pow {x k : Nat} (hx : x < 2 ^ 32) (hk : k ≤ 32) :
    x &&& not32 (2 ^ k - 1) = x - x % 2 ^ k := by
  have hklt : (2 : Nat) ^ k ≤ 2 ^ 32 := Nat.pow_le_pow_right (by norm_num) hk
  have hmod : (2 ^ k - 1) % 2 ^ 32 = 2 ^ k - 1 := Nat.mod_eq_of_lt (by omega)
  have hsub : x - x % 2 ^ k = x / 2 ^ k * 2 ^ k := by
    rw [Nat.mul_comm]
    have := Nat.mod_add_div x (2 ^ k); omega
  apply Nat.eq_of_testBit_eq
  intro i
  rw [not32, hmod, Nat.testBit_land, Nat.testBit_xor, Nat.testBit_two_pow_sub_one,
    Nat.testBit_two_pow_sub_one, hsub, ← Nat.shiftLeft_eq,
    Nat.testBit_shiftLeft, ← Nat.shiftRight_eq_div_pow, Nat.testBit_shiftRight]
  by_cases h1 : i < k
  · have h2 : i < 32 := lt_of_lt_of_le h1 hk
    simp [h1, h2, Nat.not_le.mpr h1]
  · have hik : k + (i - k) = i := by omega
    by_cases h2 : i < 32
    · simp [h1, h2, hik, Nat.le_of_not_lt h1]
    · have hxi : x.testBit i = false :=
        Nat.testBit_lt_two_pow (lt_of_lt_of_le hx (Nat.pow_le_pow_right (by norm_num) (by omega)))
      simp [h1, h2, hik, Nat.le_of_not_lt h1, hxi]

theorem alloc_step_mono (a : Arena) (s al o : Nat) : a.n ≤ ((a.alloc s al o).2).n := by
  unfold Arena.alloc
  by_cases h1 : a.cap < a.n
  · simp [h1]
  · by_cases h2 : a.cap < a.n + (s + al - 1) + o
    · simp [h1, h2]
    · simp [h1, h2]

theorem runAllocs_mono (a : Arena) (reqs : List (Nat × Nat × Nat)) :
    a.n ≤ (runAllocs a reqs).n := by
  induction reqs generalizing a with
  | nil => exact le_rfl
  | cons r rest ih =>
    obtain ⟨s, al, o⟩ := r
    exact le_trans (alloc_step_mono a s al o) (ih (a.alloc s al o).2)

theorem alloc_cap_eq (a : Arena) (s al o : Nat) : ((a.alloc s al o).2).cap = a.cap := by
  unfold Arena.alloc
  by_cases h1 : a.cap < a.n
  · simp [h1]
  · by_cases h2 : a.cap < a.n + (s + al - 1) + o
    · simp [h1, h2]
    · simp [h1, h2]

/-- A failing alloc either leaves the counter unchanged (early-return branch)
or advances it by exactly the padded request size (post-fetch-add branch). -/
theorem alloc_fail_counter {a : Arena} {s al o : Nat}
    (hfail : (a.alloc s al o).1 = none) :
    ((a.alloc s al o).2).n = a.n ∨ ((a.alloc s al o).2).n = a.n + (s + al - 1) := by
  unfold Arena.alloc at hfail ⊢
  by_cases h1 : a.cap < a.n
  · simp [h1]
  · by_cases h2 : a.cap < a.n + (s + al - 1) + o
    · simp [h1, h2]
    · simp [h1, h2] at hfail

/-- After any failing alloc, a request at least as large (in size, alignment
and overflow) fails as well: the counter only grew, so the capacity check
fails again. -/
theorem alloc_fail_persists {a : Arena} {s al o s' al' o' : Nat}
    (hfail : (a.alloc s al o).1 = none)
    (hs : s ≤ s') (hal : al ≤ al') (ho : o ≤ o') :
    (((a.alloc s al o).2).alloc s' al' o').1 = none := by
  unfold Arena.alloc at hfail ⊢
  by_cases h1 : a.cap < a.n
  · simp [h1]
  · by_cases h2 : a.cap < a.n + (s + al - 1) + o
    · simp only [if_neg h1, if_pos h2]
      by_cases h3 : a.cap < a.n + (s + al - 1)
      · simp [h3]
      · have h4 : a.cap < a.n + (s + al - 1) + (s' + al' - 1) + o' := by omega
        simp [h3, h4]
    · simp [h1, h2] at hfail

theorem alloc_ok_conditions {a : Arena} {s al o : Nat} {r : Nat × Nat}
    (hok : (a.alloc s al o).1 = some r) :
    ¬ a.cap < a.n ∧ ¬ a.cap < a.n + (s + al - 1) + o := by
  unfold Arena.alloc at hok
  by_cases h1 : a.cap < a.n
  · simp [h1] at hok
  · by_cases h2 : a.cap < a.n + (s + al - 1) + o
    · simp [h1, h2] at hok
    · exact ⟨h1, h2⟩

theorem alloc_eq_of_ok {a : Arena} {s al o : Nat}
    (h1 : ¬ a.cap < a.n) (h2 : ¬ a.cap < a.n + (s + al - 1) + o) :
    a.alloc s al o =
      (some (sub32 (a.n + (s + al - 1)) s &&& not32 (al - 1), (s + al - 1) % 2 ^ 32),
        { a with n := a.n + (s + al - 1) }) := by
  unfold Arena.alloc
  simp [h1, h2]

theorem alloc_ok_of_fits {a : Arena} {s al o : Nat}
    (h1 : a.n ≤ a.cap) (h2 : a.n + (s + al - 1) + o ≤ a.cap) :
    ((a.alloc s al o).1).isSome = true := by
  rw [alloc_eq_of_ok (Nat.not_lt.mpr h1) (Nat.not_lt.mpr h2)]
  rfl

/-- Claim C4 (amended): a failing Arena::alloc leaves the capacity unchanged
and either leaves the allocated counter unchanged (the early-return branch,
taken when the counter already exceeds the capacity) or advances it by
exactly size + align - 1 (the fetch-add happens before the capacity check);
the arena remains usable: any later request that fits under the capacity
from the new counter succeeds. -/
theorem C4_alloc_fail_state {a : Arena} {s al o : Nat}
    (hfail : (a.alloc s al o).1 = none) :
    (((a.alloc s al o).2).size = a.size ∨
      ((a.alloc s al o).2).size = a.size + (s + al - 1)) ∧
    ((a.alloc s al o).2).cap = a.cap ∧
    (∀ s' al' o', ((a.alloc s al o).2).size ≤ a.cap →
      ((a.alloc s al o).2).size + (s' + al' - 1) + o' ≤ a.cap →
      ((((a.alloc s al o).2).alloc s' al' o').1).isSome = true) := by
  refine ⟨alloc_fail_counter hfail, alloc_cap_eq a s al o, ?_⟩
  intro s' al' o' h1 h2
  exact alloc_ok_of_fits (by rw [alloc_cap_eq]; exact h1) (by rw [alloc_cap_eq]; exact h2)

/-- Claim C4, counterexample to the claim as stated: on an arena of capacity
10 with counter 1, a failing alloc of size 20 changes Arena::size from 1 to
21, so the prior state is not unchanged by the failed call. -/
theorem C4_cex :
    ((Arena.mk 10 1).alloc 20 1 0).1 = none ∧
    ¬ (((Arena.mk 10 1).alloc 20 1 0).2).size = (Arena.mk 10 1).size := by
  decide

theorem C4_witness :
    ((Arena.mk 10 1).alloc 6 1 5).1 = none ∧
    (((((Arena.mk 10 1).alloc 6 1 5).2).alloc 2 1 0).1).isSome = true :=
  ⟨by decide,
    (@C4_alloc_fail_state (Arena.mk 10 1) 6 1 5 (by decide)).2.2 2 1 0 (by decide) (by decide)⟩

/-- Claim C8: the allocated counter reported by Arena::size is non-decreasing
across any single alloc call and across any sequence of alloc calls,
whether they succeed or fail. -/
theorem C8_counter_monotone :
    ∀ (a : Arena) (reqs : List (Nat × Nat × Nat)) (s al o : Nat),
      a.size ≤ (runAllocs a reqs).size ∧ a.size ≤ ((a.alloc s al o).2).size :=
  fun a reqs s al o => ⟨runAllocs_mono a reqs, alloc_step_mono a s al o⟩

/-- Claim C7: a successful Arena::alloc with power-of-two alignment returns
padded = size + align - 1 and the offset (new_size - size) masked down by
the complement of align - 1; the offset is a multiple of align, at least the
counter before the call, and offset + size is at most the counter after the
call, with at most align - 1 bytes wasted. -/
theorem C7_alloc_aligned {a : Arena} {size k overflow off pad : Nat}
    (hcap : a.cap < 2 ^ 32) (hk : k < 32)
    (hok : (a.alloc size (2 ^ k) overflow).1 = some (off, pad)) :
    pad = size + 2 ^ k - 1 ∧
    off = sub32 (((a.alloc size (2 ^ k) overflow).2).size) size &&& not32 (2 ^ k - 1) ∧
    2 ^ k ∣ off ∧
    a.size ≤ off ∧
    off + size ≤ ((a.alloc size (2 ^ k) overflow).2).size ∧
    ((a.alloc size (2 ^ k) overflow).2).size - (off + size) ≤ 2 ^ k - 1 := by
  obtain ⟨h1, h2⟩ := alloc_ok_conditions hok
  have hone : (1 : Nat) ≤ 2 ^ k := Nat.one_le_two_pow
  have heq := alloc_eq_of_ok h1 h2
  rw [heq] at hok
  obtain ⟨hoff, hpad⟩ : sub32 (a.n + (size + 2 ^ k - 1)) size &&& not32 (2 ^ k - 1) = off ∧
      (size + 2 ^ k - 1) % 2 ^ 32 = pad := by simpa using hok
  have hnew : a.n + (size + 2 ^ k - 1) + overflow ≤ a.cap := Nat.not_lt.mp h2
  have hn32 : a.n + (size + 2 ^ k - 1) < 2 ^ 32 := by omega
  have hpad32 : size + 2 ^ k - 1 < 2 ^ 32 := by omega
  have hsz : size ≤ a.n + (size + 2 ^ k - 1) := by omega
  have hsub : sub32 (a.n + (size + 2 ^ k - 1)) size = a.n + 2 ^ k - 1 := by
    rw [sub32_eq_sub hsz hn32]; omega
  have hy32 : a.n + 2 ^ k - 1 < 2 ^ 32 := by omega
  rw [hsub, @land_not32_two_pow (a.n + 2 ^ k - 1) k hy32 (by omega)] at hoff
  have hmod2 : (a.n + 2 ^ k - 1) % 2 ^ k < 2 ^ k :=
    Nat.mod_lt _ (show 0 < 2 ^ k by positivity)
  have hdm := Nat.mod_add_div (a.n + 2 ^ k - 1) (2 ^ k)
  rw [heq]
  simp only [Arena.size]
  refine ⟨?_, ?_, ⟨(a.n + 2 ^ k - 1) / 2 ^ k, ?_⟩, ?_, ?_, ?_⟩
  · rw [Nat.mod_eq_of_lt hpad32] at hpad
    exact hpad.symm
  · rw [hsub, @land_not32_two_pow (a.n + 2 ^ k - 1) k hy32 (by omega)]
    exact hoff.symm
  · omega
  · omega
  · omega
  · omega

theorem C7_witness :
    ((Arena.mk 100 1).alloc 10 (2 ^ 3) 0).1 = some (8, 17) ∧
    (2 : Nat) ^ 3 ∣ 8 ∧ (Arena.mk 100 1).size ≤ 8 ∧
    8 + 10 ≤ (((Arena.mk 100 1).alloc 10 (2 ^ 3) 0).2).size :=
  have h := @C7_alloc_aligned (Arena.mk 100 1) 10 3 0 8 17 (by decide) (by decide) (by decide)
  ⟨by decide, h.2.2.1, h.2.2.2.1, h.2.2.2.2.1⟩

/-- A bottom-level skiplist node as observable through src/map/entry.rs and
src/map/iterator.rs: its key, the version carried by the trailer, and the
value, where none is the tombstone sentinel (removed entry) exactly as
node.get_value returning None in the source.  The key type stands for byte
slices compared by the map comparator; a linear order captures the
comparator contract of spec section 4.6. -/
structure SklNode (K : Type) where
  key : K
  version : Nat
  value : Option (List Nat)
  deriving DecidableEq

/-- The bottom-level ordering between two nodes, spec section 8 invariant 1:
later nodes have strictly greater key, or the same key and strictly smaller
version (equal keys sit newest-first). -/
def nodeAfter {K : Type} [LinearOrder K] (a b : SklNode K) : Prop :=
  a.key < b.key ∨ (a.key = b.key ∧ b.version < a.version)

instance {K : Type} [LinearOrder K] (a b : SklNode K) : Decidable (nodeAfter a b) := by
  unfold nodeAfter; infer_instance

/-- The bottom-level chain invariant maintained by the skiplist core. -/
def SortedChain {K : Type} [LinearOrder K] (chain : List (SklNode K)) : Prop :=
  List.Pairwise nodeAfter chain

instance {K : Type} [LinearOrder K] (chain : List (SklNode K)) :
    Decidable (SortedChain chain) := by
  unfold SortedChain; infer_instance

/-- Embeds the Ord implementation for EntryRef (src/map/entry.rs): the map
comparator on the keys first, then the version comparison reversed. -/
def entryCmp {K : Type} (c : K → K → Ordering) (a b : SklNode K) : Ordering :=
  (c a.key b.key).then (compare a.version b.version).swap

/-- Embeds the PartialEq implementation for EntryRef (src/map/entry.rs):
comparator on the keys, then the version comparison, tested for equality. -/
def entryEq {K : Type} (c : K → K → Ordering) (a b : SklNode K) : Bool :=
  ((c a.key b.key).then (compare a.version b.version)).isEq

/-- Embeds EntryRef::value (src/map/entry.rs): a tombstone reads back as the
empty byte slice. -/
def entryValue {K : Type} (e : SklNode K) : List Nat :=
  match e.value with
  | some v => v
  | none => []

/-- Embeds EntryRef::is_removed (src/map/entry.rs). -/
def SklNode.isRemoved {K : Type} (e : SklNode K) : Bool := e.value.isNone

/-- Claim C9: EntryRef's Ord orders by the comparator on keys first and, for
comparator-equal keys, by version descending (the smaller version is the
greater entry); PartialEq holds exactly when the keys compare equal and the
versions are equal, and cmp returns Equal if and only if eq holds. -/
theorem C9_entry_ord {K : Type} (c : K → K → Ordering) (a b : SklNode K) :
    (c a.key b.key ≠ Ordering.eq → entryCmp c a b = c a.key b.key) ∧
    (c a.key b.key = Ordering.eq →
      entryCmp c a b = (compare a.version b.version).swap) ∧
    (c a.key b.key = Ordering.eq → a.version < b.version →
      entryCmp c a b = Ordering.gt) ∧
    (entryEq c a b = true ↔ (c a.key b.key = Ordering.eq ∧ a.version = b.version)) ∧
    (entryCmp c a b = Ordering.eq ↔ entryEq c a b = true) := by
  unfold entryCmp entryEq
  cases h : c a.key b.key with
  | lt => simp [Ordering.then, Ordering.isEq]
  | gt => simp [Ordering.then, Ordering.isEq]
  | eq =>
    refine ⟨by simp, fun _ => by simp [Ordering.then], fun _ hv => ?_, ?_, ?_⟩
    · rw [Ordering.then]
      rw [Nat.compare_eq_lt.mpr hv]
      rfl
    · rw [Ordering.then]
      cases h2 : compare a.version b.version <;>
        simp_all [Nat.compare_eq_eq, Nat.compare_eq_lt, Nat.compare_eq_gt, Ordering.isEq] <;>
        omega
    · rw [Ordering.then, Ordering.then]
      cases h2 : compare a.version b.version <;> simp [Ordering.swap, Ordering.isEq]

theorem C9_witness :
    entryCmp compare (⟨1, 3, none⟩ : SklNode Nat) ⟨1, 5, none⟩ = Ordering.gt ∧
    entryEq compare (⟨1, 3, none⟩ : SklNode Nat) ⟨1, 3, some [2]⟩ = true :=
  ⟨(C9_entry_ord compare ⟨1, 3, none⟩ ⟨1, 5, none⟩).2.2.1 (by decide) (by decide),
    ((C9_entry_ord compare ⟨1, 3, none⟩ ⟨1, 3, some [2]⟩).2.2.2.1).mpr
      ⟨by decide, by decide⟩⟩

/-- Claim C10: EntryRef::value returns the empty slice for a tombstone, so a
removed entry is indistinguishable through value() from one stored with an
empty value, and is_removed is true exactly when the internal value is
None. -/
theorem C10_value_removed {K : Type} (e : SklNode K) (k : K) (ver : Nat) :
    (e.value = none → entryValue e = []) ∧
    entryValue (⟨k, ver, none⟩ : SklNode K) = entryValue ⟨k, ver, some []⟩ ∧
    (e.isRemoved = true ↔ e.value = none) := by
  refine ⟨fun h => by simp [entryValue, h], rfl, ?_⟩
  cases h : e.value <;> simp [SklNode.isRemoved, h]

theorem C10_witness :
    entryValue (⟨0, 0, none⟩ : SklNode Nat) = [] ∧
    (⟨0, 0, none⟩ : SklNode Nat).isRemoved = true :=
  ⟨(C10_value_removed (⟨0, 0, none⟩ : SklNode Nat) 0 0).1 rfl,
    ((C10_value_removed (⟨0, 0, none⟩ : SklNode Nat) 0 0).2.2).mpr rfl⟩

/-- The source's test whether the candidate node's key compares equal to the
key of the last yielded entry (src/map/iterator.rs, next_in). -/
def lastKeyMatches {K : Type} [LinearOrder K] (last : Option (SklNode K))
    (n : SklNode K) : Bool :=
  match last with
  | some l => decide (l.key = n.key)
  | none => false

/-- Embeds MapIterator::next_in (src/map/iterator.rs) specialised to the
full-range iterator built by MapIterator::new, unrolled over the bottom-level
chain: skip nodes whose version exceeds the iterator version; when
all_versions is false, skip nodes whose key compares equal to the last
yielded entry's key; otherwise yield the node and remember it as last.
The range containment check of the source is the full range and always
holds.  Note that the source yields a node regardless of whether its value
is a tombstone. -/
def iterYieldsAux {K : Type} [LinearOrder K] (v : Nat) (allVersions : Bool) :
    Option (SklNode K) → List (SklNode K) → List (SklNode K)
  | _, [] => []
  | last, n :: rest =>
    if v < n.version then iterYieldsAux v allVersions last rest
    else if !allVersions && lastKeyMatches last n then
      iterYieldsAux v allVersions last rest
    else n :: iterYieldsAux v allVersions (some n) rest

/-- The sequence of entries yielded by iter(v) (all_versions = false),
starting from the head sentinel with no last entry. -/
def iterVisible {K : Type} [LinearOrder K] (v : Nat) (chain : List (SklNode K)) :
    List (SklNode K) :=
  iterYieldsAux v false none chain

/-- The last yielded entry bounds the keys that may still be yielded. -/
def keyLB {K : Type} [LinearOrder K] : Option (SklNode K) → SklNode K → Prop
  | some l, e => l.key < e.key
  | none, _ => True

theorem iterYieldsAux_nil {K : Type} [LinearOrder K] (v : Nat) (av : Bool)
    (last : Option (SklNode K)) : iterYieldsAux v av last [] = [] := rfl

theorem iterYieldsAux_cons {K : Type} [LinearOrder K] (v : Nat) (av : Bool)
    (last : Option (SklNode K)) (n : SklNode K) (rest : List (SklNode K)) :
    iterYieldsAux v av last (n :: rest) =
      if v < n.version then iterYieldsAux v av last rest
      else if !av && lastKeyMatches last n then iterYieldsAux v av last rest
      else n :: iterYieldsAux v av (some n) rest := rfl

theorem iterYieldsAux_spec {K : Type} [LinearOrder K] (v : Nat) :
    ∀ (chain : List (SklNode K)) (last : Option (SklNode K)),
      SortedChain chain →
      (∀ n ∈ chain, ∀ l, last = some l → l.key ≤ n.key) →
      (∀ e ∈ iterYieldsAux v false last chain,
        e ∈ chain ∧ e.version ≤ v ∧ keyLB last e ∧
        (∀ m ∈ chain, m.key = e.key → m.version ≤ v → m.version ≤ e.version)) ∧
      List.Chain' (fun a b : SklNode K => a.key < b.key)
        (iterYieldsAux v false last chain) := by
  intro chain
  induction chain with
  | nil =>
    intro last _ _
    exact ⟨fun e he => absurd he (by simp [iterYieldsAux_nil]), by simp [iterYieldsAux_nil]⟩
  | cons n rest ih =>
    intro last hsorted hlast
    rw [SortedChain, List.pairwise_cons] at hsorted
    obtain ⟨hafter, hsr⟩ := hsorted
    by_cases hv : v < n.version
    · rw [iterYieldsAux_cons, if_pos hv]
      obtain ⟨ih1, ih2⟩ :=
        ih last hsr (fun m hm l hl => hlast m (List.mem_cons_of_mem _ hm) l hl)
      refine ⟨fun e he => ?_, ih2⟩
      obtain ⟨he1, he2, he3, he4⟩ := ih1 e he
      refine ⟨List.mem_cons_of_mem _ he1, he2, he3, fun m hm hkeq hmv => ?_⟩
      rcases List.mem_cons.mp hm with rfl | hm'
      · omega
      · exact he4 m hm' hkeq hmv
    · by_cases hskip : lastKeyMatches last n = true
      · obtain ⟨l, rfl⟩ : ∃ l, last = some l := by
          cases last with
          | none => simp [lastKeyMatches] at hskip
          | some l => exact ⟨l, rfl⟩
        have hlk : l.key = n.key := by simpa [lastKeyMatches] using hskip
        have hcond : (!false && lastKeyMatches (some l) n) = true := by
          simpa using hskip
        rw [iterYieldsAux_cons, if_neg hv, if_pos hcond]
        obtain ⟨ih1, ih2⟩ :=
          ih (some l) hsr (fun m hm l' hl' => hlast m (List.mem_cons_of_mem _ hm) l' hl')
        refine ⟨fun e he => ?_, ih2⟩
        obtain ⟨he1, he2, he3, he4⟩ := ih1 e he
        refine ⟨List.mem_cons_of_mem _ he1, he2, he3, fun m hm hkeq hmv => ?_⟩
        rcases List.mem_cons.mp hm with rfl | hm'
        · exact absurd (hlk.trans hkeq) (ne_of_lt he3)
        · exact he4 m hm' hkeq hmv
      · have hkeylb : keyLB last n := by
          cases last with
          | none => trivial
          | some l =>
            have hne : ¬ l.key = n.key := by simpa [lastKeyMatches] using hskip
            exact lt_of_le_of_ne (hlast n (List.mem_cons_self _ _) l rfl) hne
        have hnv : n.version ≤ v := Nat.le_of_not_lt hv
        have hlast2 : ∀ m ∈ rest, ∀ l', some n = some l' → l'.key ≤ m.key := by
          intro m hm l' hl'
          obtain rfl : n = l' := by injection hl'
          rcases hafter m hm with hlt | ⟨hke, _⟩
          · exact le_of_lt hlt
          · exact le_of_eq hke
        obtain ⟨ih1, ih2⟩ := ih (some n) hsr hlast2
        have hcond : ¬ (!false && lastKeyMatches last n) = true := by
          simpa using hskip
        have hyield : iterYieldsAux v false last (n :: rest) =
            n :: iterYieldsAux v false (some n) rest := by
          rw [iterYieldsAux_cons, if_neg hv, if_neg hcond]
        rw [hyield]
        constructor
        · intro e he
          rcases List.mem_cons.mp he with rfl | he'
          · refine ⟨List.mem_cons_self _ _, hnv, hkeylb, fun m hm hkeq hmv => ?_⟩
            rcases List.mem_cons.mp hm with rfl | hm'
            · exact le_rfl
            · rcases hafter m hm' with hlt | ⟨_, hvlt⟩
              · exact absurd hkeq (ne_of_gt hlt)
              · exact le_of_lt hvlt
          · obtain ⟨he1, he2, he3, he4⟩ := ih1 e he'
            refine ⟨List.mem_cons_of_mem _ he1, he2, ?_, fun m hm hkeq hmv => ?_⟩
            · cases last with
              | none => trivial
              | some l => exact lt_trans hkeylb he3
            · rcases List.mem_cons.mp hm with rfl | hm'
              · exact absurd hkeq (ne_of_lt he3)
              · exact he4 m hm' hkeq hmv
        · cases hL : iterYieldsAux v false (some n) rest with
          | nil => exact List.chain'_singleton n
          | cons b L2 =>
            rw [List.chain'_cons]
            refine ⟨?_, hL ▸ ih2⟩
            have hb := (ih1 b (by rw [hL]; exact List.mem_cons_self _ _)).2.2.1
            exact hb

instance {K : Type} [LinearOrder K] :
    IsTrans (SklNode K) (fun a b => a.key < b.key) :=
  ⟨fun _ _ _ => lt_trans⟩

/-- Claim C2 (amended): over any sorted bottom-level chain, the iterator
returned by iter(v) (all_versions = false) yields entries in strictly
increasing key order — hence at most one entry per distinct key — and every
yielded entry is a chain node with version at most v that carries the newest
version among the chain nodes of its key with version at most v.  Contrary
to the claim as stated, tombstoned (removed) entries are not skipped:
next_in has no removed-value check (see the counterexample). -/
theorem C2_iter_collapse {K : Type} [LinearOrder K] (v : Nat)
    (chain : List (SklNode K)) (hs : SortedChain chain) :
    List.Pairwise (fun a b : SklNode K => a.key < b.key) (iterVisible v chain) ∧
    List.Pairwise (fun a b : SklNode K => a.key ≠ b.key) (iterVisible v chain) ∧
    (∀ e ∈ iterVisible v chain, e ∈ chain ∧ e.version ≤ v ∧
      ∀ m ∈ chain, m.key = e.key → m.version ≤ v → m.version ≤ e.version) := by
  obtain ⟨h1, h2⟩ := iterYieldsAux_spec v chain none hs (by intro n hn l hl; cases hl)
  have hp : List.Pairwise (fun a b : SklNode K => a.key < b.key) (iterVisible v chain) :=
    List.chain'_iff_pairwise.mp h2
  refine ⟨hp, hp.imp fun hab => ne_of_lt hab, fun e he => ?_⟩
  obtain ⟨ha, hb, _, hc⟩ := h1 e he
  exact ⟨ha, hb, hc⟩

/-- Claim C2, counterexample to the claim as stated: a chain holding a single
tombstoned node is sorted, yet iter(0) yields that removed entry instead of
hiding it. -/
theorem C2_cex :
    SortedChain [(⟨0, 0, none⟩ : SklNode Nat)] ∧
    iterVisible 0 [(⟨0, 0, none⟩ : SklNode Nat)] = [⟨0, 0, none⟩] ∧
    (⟨0, 0, none⟩ : SklNode Nat).isRemoved = true := by
  exact ⟨by decide, by decide, rfl⟩

theorem C2_witness :
    iterVisible 1 [(⟨1, 2, some [5]⟩ : SklNode Nat), ⟨1, 1, some [6]⟩, ⟨2, 0, none⟩] =
      [⟨1, 1, some [6]⟩, ⟨2, 0, none⟩] ∧
    List.Pairwise (fun a b : SklNode Nat => a.key < b.key)
      (iterVisible 1 [(⟨1, 2, some [5]⟩ : SklNode Nat), ⟨1, 1, some [6]⟩, ⟨2, 0, none⟩]) :=
  ⟨by decide,
    (C2_iter_collapse 1
      [(⟨1, 2, some [5]⟩ : SklNode Nat), ⟨1, 1, some [6]⟩, ⟨2, 0, none⟩] (by decide)).1⟩

/-- Modelled from the spec: SkipMap::get (src/map.rs is absent from this
snapshot; only its tests, entry view and iterator are present).  Spec
section 4.4: get returns the newest visible entry whose key equals the
given key and whose version is at most the requested version, skipping
tombstones; on the bottom-level chain, which keeps equal keys newest-first,
this is the first live matching node of the scan.  Consistent with the
get_mvcc, remove and get_or_remove tests in src/map/tests.rs. -/
def sklGet {K : Type} [LinearOrder K] (v : Nat) (k : K) :
    List (SklNode K) → Option (SklNode K)
  | [] => none
  | n :: rest =>
    if n.key = k ∧ n.version ≤ v ∧ n.value.isSome = true then some n
    else sklGet v k rest

theorem sklGet_none {K : Type} [LinearOrder K] {v : Nat} {k : K}
    {chain : List (SklNode K)}
    (h : ∀ n ∈ chain, ¬(n.key = k ∧ n.version ≤ v ∧ n.value.isSome = true)) :
    sklGet v k chain = none := by
  induction chain with
  | nil => rfl
  | cons n rest ih =>
    rw [sklGet, if_neg (h n (List.mem_cons_self _ _))]
    exact ih fun m hm => h m (List.mem_cons_of_mem _ hm)

theorem sklGet_some {K : Type} [LinearOrder K] {v : Nat} {k : K}
    {chain : List (SklNode K)} {e : SklNode K}
    (hs : SortedChain chain) (he : sklGet v k chain = some e) :
    e ∈ chain ∧ e.key = k ∧ e.version ≤ v ∧ e.value.isSome = true ∧
    (∀ m ∈ chain, m.key = k → m.version ≤ v → m.value.isSome = true →
      m.version ≤ e.version) := by
  induction chain with
  | nil => cases he
  | cons n rest ih =>
    rw [SortedChain, List.pairwise_cons] at hs
    obtain ⟨hafter, hsr⟩ := hs
    rw [sklGet] at he
    by_cases hc : n.key = k ∧ n.version ≤ v ∧ n.value.isSome = true
    · rw [if_pos hc] at he
      obtain rfl : n = e := by injection he
      refine ⟨List.mem_cons_self _ _, hc.1, hc.2.1, hc.2.2, fun m hm hk hv _ => ?_⟩
      rcases List.mem_cons.mp hm with rfl | hm'
      · exact le_rfl
      · rcases hafter m hm' with hlt | ⟨_, hvlt⟩
        · exact absurd (hk.trans hc.1.symm) (ne_of_gt hlt)
        · exact le_of_lt hvlt
    · rw [if_neg hc] at he
      obtain ⟨h1, h2, h3, h4, h5⟩ := ih hsr he
      refine ⟨List.mem_cons_of_mem _ h1, h2, h3, h4, fun m hm hk hv hsome => ?_⟩
      rcases List.mem_cons.mp hm with rfl | hm'
      · exact absurd ⟨hk, hv, hsome⟩ hc
      · exact h5 m hm' hk hv hsome

theorem isRemoved_false_iff {K : Type} (e : SklNode K) :
    e.isRemoved = false ↔ e.value.isSome = true := by
  cases h : e.value <;> simp [SklNode.isRemoved, h]

/-- Claim C1: whenever get(v, k) returns an entry, that entry has version at
most v, its key equals k, it is not a tombstone, and it has the maximum
version among equal-key non-tombstone chain nodes with version at most v;
and get(v, k) returns none when no such node exists. -/
theorem C1_get_visible {K : Type} [LinearOrder K] (v : Nat) (k : K)
    (chain : List (SklNode K)) (hs : SortedChain chain) :
    (∀ e, sklGet v k chain = some e →
      e.version ≤ v ∧ e.key = k ∧ e.isRemoved = false ∧ e ∈ chain ∧
      (∀ m ∈ chain, m.key = k → m.version ≤ v → m.isRemoved = false →
        m.version ≤ e.version)) ∧
    ((∀ m ∈ chain, ¬(m.key = k ∧ m.version ≤ v ∧ m.isRemoved = false)) →
      sklGet v k chain = none) := by
  constructor
  · intro e he
    obtain ⟨h1, h2, h3, h4, h5⟩ := sklGet_some hs he
    exact ⟨h3, h2, (isRemoved_false_iff e).mpr h4, h1,
      fun m hm hk hv hrm => h5 m hm hk hv ((isRemoved_false_iff m).mp hrm)⟩
  · intro h
    refine sklGet_none fun n hn hc => h n hn ?_
    exact ⟨hc.1, hc.2.1, (isRemoved_false_iff n).mpr hc.2.2⟩

theorem C1_witness :
    sklGet 2 1 [(⟨1, 3, some [7]⟩ : SklNode Nat), ⟨1, 1, some [8]⟩] = some ⟨1, 1, some [8]⟩ ∧
    (⟨1, 1, some [8]⟩ : SklNode Nat).version ≤ 2 ∧
    (⟨1, 1, some [8]⟩ : SklNode Nat).isRemoved = false ∧
    sklGet 0 2 [(⟨1, 3, some [7]⟩ : SklNode Nat), ⟨1, 1, some [8]⟩] = none :=
  ⟨by decide,
    ((C1_get_visible 2 1 [(⟨1, 3, some [7]⟩ : SklNode Nat), ⟨1, 1, some [8]⟩]
      (by decide)).1 ⟨1, 1, some [8]⟩ (by decide)).1,
    ((C1_get_visible 2 1 [(⟨1, 3, some [7]⟩ : SklNode Nat), ⟨1, 1, some [8]⟩]
      (by decide)).1 ⟨1, 1, some [8]⟩ (by decide)).2.2.1,
    (C1_get_visible 0 2 [(⟨1, 3, some [7]⟩ : SklNode Nat), ⟨1, 1, some [8]⟩]
      (by decide)).2 (by decide)⟩

/-- The node predicate used by the splice search for an exact key and
version match. -/
def nodeKVb {K : Type} [LinearOrder K] (k : K) (ver : Nat) (n : SklNode K) : Bool :=
  decide (n.key = k) && decide (n.version = ver)

/-- Inserts a node at its sorted position in the bottom-level chain
(key ascending, version descending), as the linking step of the absent
src/map.rs maintains spec section 8 invariant 1. -/
def insertNode {K : Type} [LinearOrder K] (m : SklNode K) :
    List (SklNode K) → List (SklNode K)
  | [] => [m]
  | n :: rest => if nodeAfter n m then n :: insertNode m rest else m :: n :: rest

/-- Replaces the value of the node with the given key and version by the
tombstone sentinel, the in-place value-pointer CAS of the remove path. -/
def tombKV {K : Type} [LinearOrder K] (k : K) (ver : Nat)
    (chain : List (SklNode K)) : List (SklNode K) :=
  chain.map fun m => if nodeKVb k ver m = true then ⟨m.key, m.version, none⟩ else m

/-- Modelled from the spec: SkipMap::get_or_remove (src/map.rs absent).  The
spec sentence claims a tombstone is published whenever the key exists live,
but the repository's own test (get_or_remove in src/map/tests.rs) pins the
opposite behaviour: like get_or_insert, the operation returns the existing
entry and changes nothing when a live node with the given key and version
is already present, and publishes a tombstone node when no such node
exists.  The model follows the test.  The remaining branch — a node already
tombstoned, where the model returns none and changes nothing by analogy
with get_or_insert — is pinned by neither the spec nor the tests, and no
property below depends on it. -/
def getOrRemove {K : Type} [LinearOrder K] (v : Nat) (k : K)
    (chain : List (SklNode K)) : Option (SklNode K) × List (SklNode K) :=
  match chain.find? (nodeKVb k v) with
  | some n => (if n.value.isSome = true then some n else none, chain)
  | none => (none, insertNode ⟨k, v, none⟩ chain)

/-- Modelled from the spec: SkipMap::compare_remove (src/map.rs absent).
Spec section 4.4 and the Remove algorithm: locate or allocate a node with
the given key and version whose value pointer encodes the tombstone;
Left(Some(prev)) reports that a live entry was removed, Left(None) that
there was nothing to remove.  The Right variant only arises from concurrent
interference and cannot occur in this sequential model.  Consistent with
the remove and remove2 tests in src/map/tests.rs. -/
def compareRemove {K : Type} [LinearOrder K] (v : Nat) (k : K)
    (chain : List (SklNode K)) :
    (Option (SklNode K) ⊕ SklNode K) × List (SklNode K) :=
  match chain.find? (nodeKVb k v) with
  | some n =>
    if n.value.isSome = true then (Sum.inl (some n), tombKV k v chain)
    else (Sum.inl none, chain)
  | none => (Sum.inl none, insertNode ⟨k, v, none⟩ chain)

/-- In a sorted chain at most one node carries a given key and version, so
the exact-match search returns precisely the member node. -/
theorem find_kv_eq {K : Type} [LinearOrder K] {chain : List (SklNode K)}
    {n : SklNode K} {k : K} {ver : Nat}
    (hs : SortedChain chain) (hn : n ∈ chain) (hk : n.key = k)
    (hv : n.version = ver) :
    chain.find? (nodeKVb k ver) = some n := by
  induction chain with
  | nil => cases hn
  | cons h rest ih =>
    rw [SortedChain, List.pairwise_cons] at hs
    obtain ⟨hafter, hs'⟩ := hs
    rcases List.mem_cons.mp hn with rfl | hn'
    · exact List.find?_cons_of_pos _ (by simp [nodeKVb, hk, hv])
    · have hpred : ¬ nodeKVb k ver h = true := by
        rcases hafter n hn' with hlt | ⟨hke, hve⟩
        · have : h.key ≠ k := by rw [← hk]; exact ne_of_lt hlt
          simp [nodeKVb, this]
        · have : h.version ≠ ver := by omega
          simp [nodeKVb, this]
      rw [List.find?_cons_of_neg _ hpred]
      exact ih hs' hn'

theorem mem_insertNode {K : Type} [LinearOrder K] (m : SklNode K)
    (chain : List (SklNode K)) : m ∈ insertNode m chain := by
  induction chain with
  | nil => exact List.mem_cons_self _ _
  | cons n rest ih =>
    rw [insertNode]
    by_cases h : nodeAfter n m
    · rw [if_pos h]; exact List.mem_cons_of_mem _ ih
    · rw [if_neg h]; exact List.mem_cons_self _ _

theorem tombKV_key_version {K : Type} [LinearOrder K] (k : K) (ver : Nat)
    (m : SklNode K) :
    ((if nodeKVb k ver m = true then (⟨m.key, m.version, none⟩ : SklNode K) else m).key = m.key ∧
     (if nodeKVb k ver m = true then (⟨m.key, m.version, none⟩ : SklNode K) else m).version
       = m.version) := by
  by_cases h : nodeKVb k ver m = true <;> simp [h]

theorem tombKV_sorted {K : Type} [LinearOrder K] {k : K} {ver : Nat}
    {chain : List (SklNode K)} (hs : SortedChain chain) :
    SortedChain (tombKV k ver chain) := by
  unfold SortedChain tombKV at *
  refine List.Pairwise.map _ ?_ hs
  intro a b hab
  obtain ⟨hka, hva⟩ := tombKV_key_version k ver a
  obtain ⟨hkb, hvb⟩ := tombKV_key_version k ver b
  unfold nodeAfter at *
  rw [hka, hkb, hva, hvb]
  exact hab

/-- Claim C3, counterexample to the claim as stated: the newest visible entry
for key 1 at version 0 exists and is live, yet get_or_remove(0, 1) publishes
no tombstone, leaves the map unchanged, and get(0, 1) still returns that
live entry afterwards, exactly as the repository's get_or_remove test
asserts. -/
theorem C3_cex :
    SortedChain [(⟨1, 0, some [7]⟩ : SklNode Nat)] ∧
    getOrRemove 0 1 [(⟨1, 0, some [7]⟩ : SklNode Nat)] =
      (some ⟨1, 0, some [7]⟩, [⟨1, 0, some [7]⟩]) ∧
    sklGet 0 1 (getOrRemove 0 1 [(⟨1, 0, some [7]⟩ : SklNode Nat)]).2 =
      some ⟨1, 0, some [7]⟩ := by
  exact ⟨by decide, by decide, by decide⟩

/-- Claim C3 (amended): get_or_remove(v, k) does not remove an existing live
entry: when a live node with key k and version v exists it returns that
entry and leaves the map unchanged, so get(v, k) still returns the live
entry afterwards; and when no node with key k and version v exists it
publishes a tombstone node and returns none. -/
theorem C3_get_or_remove {K : Type} [LinearOrder K] (v : Nat) (k : K)
    (chain : List (SklNode K)) (n : SklNode K) (hs : SortedChain chain) :
    (n ∈ chain → n.key = k → n.version = v → n.value.isSome = true →
      getOrRemove v k chain = (some n, chain) ∧
      sklGet v k (getOrRemove v k chain).2 = sklGet v k chain) ∧
    ((∀ m ∈ chain, ¬(m.key = k ∧ m.version = v)) →
      getOrRemove v k chain = (none, insertNode ⟨k, v, none⟩ chain) ∧
      (⟨k, v, none⟩ : SklNode K) ∈ (getOrRemove v k chain).2) := by
  constructor
  · intro hn hk hv hlive
    have heq : getOrRemove v k chain = (some n, chain) := by
      unfold getOrRemove
      rw [find_kv_eq hs hn hk hv]
      simp [hlive]
    exact ⟨heq, by rw [heq]⟩
  · intro hnone
    have hfind : chain.find? (nodeKVb k v) = none := by
      rw [List.find?_eq_none]
      intro m hm
      have := hnone m hm
      simp only [nodeKVb, Bool.and_eq_true, decide_eq_true_eq]
      intro hcontra
      exact this hcontra
    have heq : getOrRemove v k chain = (none, insertNode ⟨k, v, none⟩ chain) := by
      unfold getOrRemove
      rw [hfind]
    exact ⟨heq, by rw [heq]; exact mem_insertNode _ _⟩

theorem C3_witness :
    getOrRemove 0 1 [(⟨1, 0, some [7]⟩ : SklNode Nat)] =
      (some ⟨1, 0, some [7]⟩, [⟨1, 0, some [7]⟩]) ∧
    getOrRemove 0 2 [(⟨1, 0, some [7]⟩ : SklNode Nat)] =
      (none, insertNode ⟨2, 0, none⟩ [⟨1, 0, some [7]⟩]) :=
  ⟨((@C3_get_or_remove Nat _ 0 1 [⟨1, 0, some [7]⟩] ⟨1, 0, some [7]⟩ (by decide)).1
      (by decide) (by decide) (by decide) (by decide)).1,
    ((@C3_get_or_remove Nat _ 0 2 [⟨1, 0, some [7]⟩] ⟨1, 0, some [7]⟩ (by decide)).2
      (by decide)).1⟩

/-- Claim C5: in a sorted chain holding a live node with key k at version 0
(the state reached by inserting distinct keys with live values at
version 0), compare_remove(0, k) returns Left(Some(prev)) carrying the
inserted value and tombstones that node in place; an immediately repeated
compare_remove(0, k) returns Left(None) and changes nothing; and get(0, k)
afterwards returns none. -/
theorem C5_compare_remove {K : Type} [LinearOrder K] (k : K) (val : List Nat)
    (chain : List (SklNode K)) (hs : SortedChain chain)
    (hn : (⟨k, 0, some val⟩ : SklNode K) ∈ chain) :
    compareRemove 0 k chain = (Sum.inl (some ⟨k, 0, some val⟩), tombKV k 0 chain) ∧
    compareRemove 0 k (tombKV k 0 chain) = (Sum.inl none, tombKV k 0 chain) ∧
    sklGet 0 k (tombKV k 0 chain) = none := by
  have hfind := find_kv_eq hs hn
    (show (⟨k, 0, some val⟩ : SklNode K).key = k from rfl)
    (show (⟨k, 0, some val⟩ : SklNode K).version = 0 from rfl)
  have hsorted2 := @tombKV_sorted K _ k 0 chain hs
  refine ⟨?_, ?_, ?_⟩
  · unfold compareRemove
    rw [hfind]
    simp
  · have hmem2 : (⟨k, 0, none⟩ : SklNode K) ∈ tombKV k 0 chain := by
      unfold tombKV
      refine List.mem_map.mpr ⟨⟨k, 0, some val⟩, hn, ?_⟩
      rw [if_pos (show nodeKVb k 0 (⟨k, 0, some val⟩ : SklNode K) = true by
        simp [nodeKVb])]
    have hfind2 := find_kv_eq hsorted2 hmem2
      (show (⟨k, 0, none⟩ : SklNode K).key = k from rfl)
      (show (⟨k, 0, none⟩ : SklNode K).version = 0 from rfl)
    unfold compareRemove
    rw [hfind2]
    simp
  · refine sklGet_none ?_
    intro m' hm'
    unfold tombKV at hm'
    obtain ⟨m, hm, rfl⟩ := List.mem_map.mp hm'
    by_cases hkv : nodeKVb k 0 m = true
    · simp [hkv]
    · rw [if_neg hkv]
      rintro ⟨h1, h2, _⟩
      refine hkv ?_
      have hv0 : m.version = 0 := Nat.le_zero.mp h2
      simp [nodeKVb, h1, hv0]

theorem C5_witness :
    compareRemove 0 1 [(⟨1, 0, some [9]⟩ : SklNode Nat)] =
      (Sum.inl (some ⟨1, 0, some [9]⟩), tombKV 1 0 [⟨1, 0, some [9]⟩]) ∧
    compareRemove 0 1 (tombKV 1 0 [(⟨1, 0, some [9]⟩ : SklNode Nat)]) =
      (Sum.inl none, tombKV 1 0 [⟨1, 0, some [9]⟩]) ∧
    sklGet 0 1 (tombKV 1 0 [(⟨1, 0, some [9]⟩ : SklNode Nat)]) = none :=
  @C5_compare_remove Nat _ 1 [9] [⟨1, 0, some [9]⟩] (by decide) (by decide)

/-- The observable state of a skipmap handle: the bottom-level chain plus
the arena it allocates from. -/
structure MapState (K : Type) where
  chain : List (SklNode K)
  arena : Arena

/-- Modelled from the spec: SkipMap::get_or_insert (src/map.rs absent).
When a node with the given key and version is already present the existing
entry is returned without allocation; otherwise node, key and value bytes
are allocated in the arena — failing fast with ArenaFull (the outer none)
while the fetch-add still claims the padded bytes — and only on success is
the new node linked.  The byte size, alignment and lookahead overflow of
the allocation are taken as parameters. -/
def getOrInsert {K : Type} [LinearOrder K] (v : Nat) (k : K) (val : List Nat)
    (s al o : Nat) (st : MapState K) :
    Option (Option (SklNode K)) × MapState K :=
  match st.chain.find? (nodeKVb k v) with
  | some n => (some (some n), st)
  | none =>
    match st.arena.alloc s al o with
    | (none, a2) => (none, ⟨st.chain, a2⟩)
    | (some _, a2) => (some none, ⟨insertNode ⟨k, v, some val⟩ st.chain, a2⟩)

/-- Claim C6: once get_or_insert fails with the arena-full error, an
immediately following attempt whose request is at least as large (and whose
key is likewise absent) also fails with the arena-full error, and every
entry inserted before the failure is still readable afterwards: the failing
call leaves the chain unchanged, so every get is unaffected. -/
theorem getOrInsert_fail_eq {K : Type} [LinearOrder K] {v : Nat} {k : K}
    {val : List Nat} {s al o : Nat} {st : MapState K}
    (hfail : (getOrInsert v k val s al o st).1 = none) :
    getOrInsert v k val s al o st = (none, ⟨st.chain, (st.arena.alloc s al o).2⟩) ∧
    (st.arena.alloc s al o).1 = none := by
  unfold getOrInsert at hfail ⊢
  cases hfind : st.chain.find? (nodeKVb k v) with
  | some n => rw [hfind] at hfail; simp at hfail
  | none =>
    rw [hfind] at hfail
    cases halloc : st.arena.alloc s al o with
    | mk r a2 =>
      rw [halloc] at hfail
      cases r with
      | some pr => simp at hfail
      | none => exact ⟨rfl, rfl⟩

/-- Claim C6: once get_or_insert fails with the arena-full error, an
immediately following attempt whose request is at least as large (and whose
key is likewise absent from the chain) also fails with the arena-full
error, and every entry inserted before the failure is still readable
afterwards: the failing call leaves the chain unchanged, so every get is
unaffected. -/
theorem C6_full_stays_full {K : Type} [LinearOrder K] (v v' : Nat) (k k' : K)
    (val val' : List Nat) (s al o s' al' o' : Nat) (st : MapState K)
    (hfail : (getOrInsert v k val s al o st).1 = none)
    (hs : s ≤ s') (hal : al ≤ al') (ho : o ≤ o')
    (hnf : ((getOrInsert v k val s al o st).2).chain.find? (nodeKVb k' v') = none) :
    (getOrInsert v' k' val' s' al' o' ((getOrInsert v k val s al o st).2)).1 = none ∧
    ((getOrInsert v k val s al o st).2).chain = st.chain ∧
    (∀ (w : Nat) (q : K),
      sklGet w q (((getOrInsert v k val s al o st).2).chain) = sklGet w q st.chain) := by
  obtain ⟨heq, hallocfail⟩ := getOrInsert_fail_eq hfail
  rw [heq] at hnf ⊢
  dsimp only at hnf ⊢
  refine ⟨?_, rfl, fun w q => rfl⟩
  unfold getOrInsert
  dsimp only
  rw [hnf]
  have h2 := alloc_fail_persists hallocfail hs hal ho
  cases halloc2 : ((st.arena.alloc s al o).2).alloc s' al' o' with
  | mk r2 a3 =>
    rw [halloc2] at h2
    cases r2 with
    | some pr => simp at h2
    | none => rfl

theorem C6_witness :
    (getOrInsert 0 1 [2] 10 1 0 (⟨[], ⟨5, 1⟩⟩ : MapState Nat)).1 = none ∧
    (getOrInsert 0 2 [3] 10 1 0
      ((getOrInsert 0 1 [2] 10 1 0 (⟨[], ⟨5, 1⟩⟩ : MapState Nat)).2)).1 = none ∧
    ((getOrInsert 0 1 [2] 10 1 0 (⟨[], ⟨5, 1⟩⟩ : MapState Nat)).2).chain = [] :=
  have h := @C6_full_stays_full Nat _ 0 0 1 2 [2] [3] 10 1 0 10 1 0
    (⟨[], ⟨5, 1⟩⟩ : MapState Nat) (by decide) (by decide) (by decide) (by decide)
    (by decide)
  ⟨by decide, h.1, h.2.1⟩
